import Mathlib

/-!
Verification development for the csp-web-checker repository.

The repository has two executable parts:

* `main.go` — a web front end whose core logic is `runCSPCheck` (multi-engine
  probe orchestration), `parseURLList` / `normalizeURL` (URL-list parsing),
  `parseConfig` (configuration repair), `isDisposition`, and the grouping
  functions `groupViolations`, `groupViolationsByDisposition`,
  `groupViolationsMulti`, `groupViolationsMultiByDisposition`.
* `csp-check.mjs` — the browser probe, whose per-page deduplication step
  (inside `checkUrl`, via `violationKey` / `mergeViolation` /
  `normalizeDisposition`) is modelled here as well.

Strings are modelled as `List Char` (Go strings and JS strings are character
sequences; all data handled by the claims is ASCII, where Go's byte-wise
operations and character-wise operations agree).  Go's `map` type has an
unspecified, randomized iteration order; wherever the source ranges over a
map, the model takes the iteration order as an explicit argument, so that
order-(in)dependence of results can be stated and settled.
-/

/-- Strings of the modelled programs, as character lists. -/
abbrev Str := List Char

/-- Model of Go `strings.TrimSpace` / JS `String.prototype.trim`:
drop whitespace from both ends. -/
def wsTrim (s : Str) : Str :=
  ((s.dropWhile Char.isWhitespace).reverse.dropWhile Char.isWhitespace).reverse

/-- Right-trim only (helper for reasoning about `wsTrim`). -/
def wsTrimRight (s : Str) : Str :=
  (s.reverse.dropWhile Char.isWhitespace).reverse

/-- Model of Go `strings.Contains` / JS `String.prototype.includes`:
`strContains s sub` is true iff `sub` occurs as a contiguous substring of `s`. -/
def strContains : Str → Str → Bool
  | [], sub => sub.isEmpty
  | c :: t, sub => sub.isPrefixOf (c :: t) || strContains t sub

/-- Model of Go's byte-wise `<` on strings (lexicographic order);
for the ASCII data of this repository it coincides with character order. -/
def lexLt : Str → Str → Bool
  | [], [] => false
  | [], _ :: _ => true
  | _ :: _, [] => false
  | a :: as, b :: bs => if a < b then true else if b < a then false else lexLt as bs

/-- Model of JS `String.prototype.toLowerCase` / Go `strings.ToLower`
(ASCII range). -/
def toLowerStr (s : Str) : Str := s.map Char.toLower

/-- Model of Go `strings.Split(text, "\n")`: split on newline characters,
keeping empty fields. -/
def splitNL : Str → List Str
  | [] => [[]]
  | c :: t =>
    if c = '\n' then [] :: splitNL t
    else
      match splitNL t with
      | [] => [[c]]
      | h :: r => (c :: h) :: r

/-- Association-list lookup, modelling read access `m[k]` on a Go map or
`m.get(k)` on a JS `Map` (the list is kept in first-insertion order). -/
def lookupA {α : Type} (k : Str) : List (Str × α) → Option α
  | [] => none
  | p :: t => if p.1 = k then some p.2 else lookupA k t

/-- Association-list value replacement, modelling write access `m[k] = v` for
a key already present: the entry keeps its position, its value is replaced. -/
def updateA {α : Type} (k : Str) (v : α) : List (Str × α) → List (Str × α)
  | [] => []
  | p :: t => if p.1 = k then (k, v) :: t else p :: updateA k v t

/-- The keys of an association list, in insertion order. -/
def keysA {α : Type} (m : List (Str × α)) : List Str := m.map Prod.fst

/-!
Both `main.go` sorts are the same in-place double loop

    for i := 0; i < len(a); i++ {
      for j := i + 1; j < len(a); j++ {
        if swapCondition(a[j], a[i]) { a[i], a[j] = a[j], a[i] }
      }
    }

i.e. a selection-style sort.  `innerPass ok x t` models one inner loop with
current `a[i] = x` and remaining suffix `t`; the swap condition of the source
is `!(ok x y)`, where `ok a b` says `a` may be placed before `b`
(`groupViolations`: `ok a b = (b.Count ≤ a.Count)`, swap iff
`a[j].Count > a[i].Count`; browser-name sort: `ok a b = !(lexLt b a)`,
swap iff `a[j] < a[i]`).
-/

/-- One inner pass of the source's in-place double-loop sort: returns the
element left in position `i` after the pass, and the new suffix. -/
def innerPass {α : Type} (ok : α → α → Bool) : α → List α → α × List α
  | x, [] => (x, [])
  | x, y :: t =>
    if ok x y then
      let p := innerPass ok x t
      (p.1, y :: p.2)
    else
      let p := innerPass ok y t
      (p.1, x :: p.2)

/-- The outer loop of the source's in-place double-loop sort, with explicit
fuel (set to the list length by `selSort`). -/
def selSortAux {α : Type} (ok : α → α → Bool) : Nat → List α → List α
  | 0, l => l
  | _ + 1, [] => []
  | n + 1, x :: t =>
    let p := innerPass ok x t
    p.1 :: selSortAux ok n p.2

/-- The source's in-place double-loop sort. -/
def selSort {α : Type} (ok : α → α → Bool) (l : List α) : List α :=
  selSortAux ok l.length l

/-!  ## Data model (`main.go` types)  -/

/-- `main.go` `Violation`: one CSP policy breach as reported by the probe.
Nullable JSON numbers (`*int`) are `Option Int`; strings default to empty. -/
structure Violation where
  documentURI : Str := []
  referrer : Str := []
  blockedURI : Str := []
  blockedOrigin : Str := []
  effectiveDirective : Str := []
  violatedDirective : Str := []
  originalPolicy : Str := []
  disposition : Str := []
  statusCode : Option Int := none
  sourceFile : Str := []
  lineNumber : Option Int := none
  columnNumber : Option Int := none
  sample : Str := []
  deriving DecidableEq, Repr, Inhabited

/-- `main.go` `ReportTotals`. -/
structure ReportTotals where
  pages : Int := 0
  violations : Int := 0
  deriving DecidableEq, Repr, Inhabited

/-- `main.go` `ReportPageResult`: outcome of probing one URL with one engine. -/
structure ReportPageResult where
  url : Str := []
  status : Option Int := none
  ok : Bool := true
  error : Str := []
  durationMs : Int := 0
  violations : List Violation := []
  deriving DecidableEq, Repr, Inhabited

/-- `main.go` `Report`: one engine's full pass (the `Config map[string]any`
field is not consumed by any modelled function and is omitted). -/
structure Report where
  generatedAt : Str := []
  totals : ReportTotals := {}
  results : List ReportPageResult := []
  baseURL : Str := []
  deriving DecidableEq, Repr, Inhabited

/-- `main.go` `GroupedViolation`: an aggregate of violations sharing one
`(effectiveDirective, blockedOrigin)` key.  The Go `Pages
map[string][]Violation` is modelled as an association list in first-insertion
order (its own iteration order is irrelevant to the claims, which only read
it through order-independent aggregates). -/
structure GroupedViolation where
  key : Str := []
  effectiveDirective : Str := []
  blockedOrigin : Str := []
  count : Nat := 0
  pages : List (Str × List Violation) := []
  deriving DecidableEq, Repr, Inhabited

/-- `main.go` `MergedGroup`: a grouped violation plus the engines showing it. -/
structure MergedGroup where
  group : GroupedViolation := {}
  browsers : List Str := []
  deriving DecidableEq, Repr, Inhabited

/-- `main.go` `BrowserReport`: one engine's report in a run view (the
`Groups`/`Warns` fields are derived display data, not read by the modelled
functions). -/
structure BrowserReport where
  name : Str := []
  report : Report := {}
  deriving DecidableEq, Repr, Inhabited

/-- `main.go` `CSPConfig`. -/
structure CSPConfig where
  waitUntil : Str := []
  navTimeoutMs : Int := 0
  settleWaitMs : Int := 0
  concurrency : Int := 0
  betweenUrlMs : Int := 0
  userAgent : Str := []
  acceptLanguage : Str := []
  browser : Str := []
  deriving DecidableEq, Repr, Inhabited

/-!  ## `main.go`: configuration model  -/

/-- `main.go` `defaultConfig`. -/
def defaultConfig : CSPConfig :=
  { waitUntil := ("networkidle").data
  , navTimeoutMs := 45000
  , settleWaitMs := 3000
  , concurrency := 1
  , betweenUrlMs := 600
  , userAgent := ("Mozilla/5.0 (X11; Linux x86_64) AppleWebKit/537.36 (KHTML, like Gecko) Chrome/120.0.0.0 Safari/537.36").data
  , acceptLanguage := ("en-US,en;q=0.9").data
  , browser := ("chromium").data }

/-- A stored configuration JSON object, as seen by `parseConfig` after JSON
parsing: `some v` models a field present in the JSON text with value `v`,
`none` a field that is absent. -/
structure StoredConfig where
  waitUntil : Option Str := none
  navTimeoutMs : Option Int := none
  settleWaitMs : Option Int := none
  concurrency : Option Int := none
  betweenUrlMs : Option Int := none
  userAgent : Option Str := none
  acceptLanguage : Option Str := none
  browser : Option Str := none
  deriving DecidableEq, Repr, Inhabited

/-- Model of `encoding/json.Unmarshal` into a pre-filled `CSPConfig` value:
fields present in the JSON overwrite the pre-filled value, absent fields
keep it. -/
def unmarshalConfig (cfg : CSPConfig) (sc : StoredConfig) : CSPConfig :=
  { waitUntil := sc.waitUntil.getD cfg.waitUntil
  , navTimeoutMs := sc.navTimeoutMs.getD cfg.navTimeoutMs
  , settleWaitMs := sc.settleWaitMs.getD cfg.settleWaitMs
  , concurrency := sc.concurrency.getD cfg.concurrency
  , betweenUrlMs := sc.betweenUrlMs.getD cfg.betweenUrlMs
  , userAgent := sc.userAgent.getD cfg.userAgent
  , acceptLanguage := sc.acceptLanguage.getD cfg.acceptLanguage
  , browser := sc.browser.getD cfg.browser }

/-- `parseConfig` repair step `if cfg.WaitUntil == "" { cfg.WaitUntil = "domcontentloaded" }`. -/
def repairWaitUntil (cfg : CSPConfig) : CSPConfig :=
  if cfg.waitUntil = [] then { cfg with waitUntil := ("domcontentloaded").data } else cfg

/-- `parseConfig` repair step `if cfg.NavTimeoutMs <= 0 { cfg.NavTimeoutMs = 30000 }`. -/
def repairNavTimeout (cfg : CSPConfig) : CSPConfig :=
  if cfg.navTimeoutMs ≤ 0 then { cfg with navTimeoutMs := 30000 } else cfg

/-- `parseConfig` repair step `if cfg.SettleWaitMs < 0 { cfg.SettleWaitMs = 0 }`. -/
def repairSettleWait (cfg : CSPConfig) : CSPConfig :=
  if cfg.settleWaitMs < 0 then { cfg with settleWaitMs := 0 } else cfg

/-- `parseConfig` repair step `if cfg.Concurrency <= 0 { cfg.Concurrency = 1 }`. -/
def repairConcurrency (cfg : CSPConfig) : CSPConfig :=
  if cfg.concurrency ≤ 0 then { cfg with concurrency := 1 } else cfg

/-- `parseConfig` repair step `if cfg.BetweenURLMs < 0 { cfg.BetweenURLMs = 0 }`. -/
def repairBetweenURL (cfg : CSPConfig) : CSPConfig :=
  if cfg.betweenUrlMs < 0 then { cfg with betweenUrlMs := 0 } else cfg

/-- `parseConfig` repair step `if cfg.UserAgent == "" { ... default UA }`. -/
def repairUserAgent (cfg : CSPConfig) : CSPConfig :=
  if cfg.userAgent = [] then { cfg with userAgent := defaultConfig.userAgent } else cfg

/-- `parseConfig` repair step `if cfg.AcceptLanguage == "" { ... default }`. -/
def repairAcceptLanguage (cfg : CSPConfig) : CSPConfig :=
  if cfg.acceptLanguage = [] then { cfg with acceptLanguage := defaultConfig.acceptLanguage } else cfg

/-- `parseConfig` repair step `if cfg.Browser == "" { ... default }`. -/
def repairBrowser (cfg : CSPConfig) : CSPConfig :=
  if cfg.browser = [] then { cfg with browser := defaultConfig.browser } else cfg

/-- `main.go` `parseConfig` (the success path): `none` models a raw string
that is blank after trimming, `some sc` a raw string that parses as the JSON
object `sc`.  The eight repair `if`s of the source are applied in source
order. -/
def parseConfig : Option StoredConfig → CSPConfig
  | none => defaultConfig
  | some sc =>
    repairBrowser (repairAcceptLanguage (repairUserAgent (repairBetweenURL
      (repairConcurrency (repairSettleWait (repairNavTimeout (repairWaitUntil
        (unmarshalConfig defaultConfig sc))))))))

/-!  ## `main.go`: URL list parsing  -/

/-- Model of `main.go` `normalizeURL` (which wraps the standard library's
`url.Parse` and `URL.String`), restricted to the `http://`/`https://` inputs
that `parseURLList` feeds it: split off the scheme, read the host up to the
first `/`, `?` or `#`, fail when the host is empty, and re-serialize,
inserting the path `/` when the path component is empty. -/
def normalizeURL (raw : Str) : Option Str :=
  let schemeSplit : Option (Str × Str) :=
    if (("http://").data).isPrefixOf raw then some ((("http://").data), raw.drop 7)
    else if (("https://").data).isPrefixOf raw then some ((("https://").data), raw.drop 8)
    else none
  match schemeSplit with
  | none => none
  | some (scheme, rest) =>
    let host := rest.takeWhile (fun c => c != '/' && c != '?' && c != '#')
    if host = [] then none
    else
      let tail := rest.drop host.length
      let path := tail.takeWhile (fun c => c != '?' && c != '#')
      if path = [] then some (scheme ++ host ++ '/' :: tail)
      else some (scheme ++ host ++ tail)

/-- The per-line body of `main.go` `parseURLList`'s loop: trim, drop blank
lines and `#`-prefixed comment lines, cut the line at its first `#`, and keep
only successfully normalized `http(s)` URLs. -/
def lineURL (raw : Str) : Option Str :=
  let line := wsTrim raw
  if line = [] then none
  else if (("#").data).isPrefixOf line then none
  else
    let line := if line.contains '#' then wsTrim (line.takeWhile (fun c => c != '#')) else line
    if line = [] then none
    else if (("http://").data).isPrefixOf line || (("https://").data).isPrefixOf line then
      normalizeURL line
    else none

/-- `main.go` `parseURLList`. -/
def parseURLList (text : Str) : List Str :=
  (splitNL text).filterMap lineURL

/-!  ## `main.go`: violation aggregation  -/

/-- The grouping key `fmt.Sprintf("%s -> %s", v.EffectiveDirective,
v.BlockedOrigin)`. -/
def groupKey (v : Violation) : Str :=
  v.effectiveDirective ++ (" -> ").data ++ v.blockedOrigin

/-- One step of `groupViolations`'s map-building loop: bump the group for
`v`'s key (creating it on first sight), incrementing its count and appending
`v` to the page list of `url`. -/
def addViolation (acc : List (Str × GroupedViolation)) (url : Str) (v : Violation) :
    List (Str × GroupedViolation) :=
  let key := groupKey v
  match lookupA key acc with
  | some g =>
    updateA key
      { g with count := g.count + 1, pages := pagesAdd url v g.pages } acc
  | none =>
    acc ++ [(key,
      { key := key
      , effectiveDirective := v.effectiveDirective
      , blockedOrigin := v.blockedOrigin
      , count := 1
      , pages := [(url, [v])] })]
where
  /-- `g.Pages[r.URL] = append(g.Pages[r.URL], v)`. -/
  pagesAdd (url : Str) (v : Violation) : List (Str × List Violation) → List (Str × List Violation)
    | [] => [(url, [v])]
    | (u, vs) :: t => if u = url then (u, vs ++ [v]) :: t else (u, vs) :: pagesAdd url v t

/-- The `(page URL, violation)` pairs visited by `groupViolations`'s nested
`for` loops, in visit order. -/
def pageViolationPairs (results : List ReportPageResult) : List (Str × Violation) :=
  results.foldl (fun acc r => acc ++ r.violations.map (fun v => (r.url, v))) []

/-- The `groups` map built by `main.go` `groupViolations`, as an association
list in first-insertion order. -/
def buildGroups (results : List ReportPageResult) : List (Str × GroupedViolation) :=
  (pageViolationPairs results).foldl (fun acc p => addViolation acc p.1 p.2) []

/-- Placement order for the descending-count sort of `groupViolations`:
`a` may precede `b` when the source loop would not swap them,
i.e. when `¬(b.Count > a.Count)`. -/
def okCount (a b : GroupedViolation) : Bool := b.count ≤ a.count

/-- `main.go` `groupViolations`.  The source collects the map's values with
`for _, g := range groups`, whose order Go does not specify: `order` is that
iteration order (a genuine run of the program corresponds to an `order` that
enumerates each key of the map exactly once, i.e. a permutation of
`keysA (buildGroups results)`).  The collected slice is then sorted by the
in-place double loop on descending count. -/
def groupViolations (results : List ReportPageResult) (order : List Str) :
    List GroupedViolation :=
  selSort okCount (order.filterMap (fun k => lookupA k (buildGroups results)))

/-- `main.go` `isDisposition`. -/
def isDisposition (actual want : Str) : Bool :=
  let a := toLowerStr (wsTrim actual)
  if want = ("report-only").data then strContains a (("report").data)
  else a.isEmpty || a = ("enforce").data

/-- The page-filtering loop of `main.go` `groupViolationsByDisposition`:
keep only the violations matching `disposition`, and drop pages whose
violation list becomes empty. -/
def filterResultsByDisposition (results : List ReportPageResult) (disposition : Str) :
    List ReportPageResult :=
  (results.map (fun r =>
      { r with violations := r.violations.filter (fun v => isDisposition v.disposition disposition) })).filter
    (fun nr => !nr.violations.isEmpty)

/-- `main.go` `groupViolationsByDisposition` (with the group-map iteration
order explicit, as in `groupViolations`). -/
def groupViolationsByDisposition (results : List ReportPageResult) (disposition : Str)
    (order : List Str) : List GroupedViolation :=
  groupViolations (filterResultsByDisposition results disposition) order

/-- Model of a Go `map[string]struct{}` set insertion
`set[k] = struct{}{}` on a per-key name set: the value lists stay
duplicate-free. -/
def setAdd (key name : Str) : List (Str × List Str) → List (Str × List Str)
  | [] => [(key, [name])]
  | (k, ns) :: t =>
    if k = key then (k, if name ∈ ns then ns else ns ++ [name]) :: t
    else (k, ns) :: setAdd key name t

/-- The `groupBrowsers` map of `groupViolationsMulti` /
`groupViolationsMultiByDisposition`, built from the visited
`(group key, engine name)` pairs. -/
def groupBrowsersOf (pairs : List (Str × Str)) : List (Str × List Str) :=
  pairs.foldl (fun acc p => setAdd p.1 p.2 acc) []

/-- Placement order for the ascending browser-name sort: `a` may precede `b`
when the source loop would not swap them, i.e. when `¬(b < a)`. -/
def okName (a b : Str) : Bool := !(lexLt b a)

/-- The `(group key, engine name)` pairs visited by `groupViolationsMulti`. -/
def multiPairs (brs : List BrowserReport) : List (Str × Str) :=
  brs.foldl (fun acc b =>
    b.report.results.foldl (fun acc r =>
      r.violations.foldl (fun acc v => acc ++ [(groupKey v, b.name)]) acc) acc) []

/-- The pooled `all` slice of `groupViolationsMulti`. -/
def allResults (brs : List BrowserReport) : List ReportPageResult :=
  brs.foldl (fun acc b => acc ++ b.report.results) []

/-- `main.go` `groupViolationsMulti`.  `keyOrder` is the iteration order of
the `groups` map inside `groupViolations`; `nameOrders k` is the iteration
order of the name set `groupBrowsers[k]` (a genuine run corresponds to
`nameOrders k` enumerating that set exactly once). -/
def groupViolationsMulti (brs : List BrowserReport) (keyOrder : List Str)
    (nameOrders : Str → List Str) : List MergedGroup :=
  let grouped := groupViolations (allResults brs) keyOrder
  grouped.map (fun g => { group := g, browsers := selSort okName (nameOrders g.key) })

/-- The filtered `(group key, engine name)` pairs visited by
`groupViolationsMultiByDisposition`. -/
def multiPairsByDisposition (brs : List BrowserReport) (disposition : Str) :
    List (Str × Str) :=
  brs.foldl (fun acc b =>
    b.report.results.foldl (fun acc r =>
      r.violations.foldl (fun acc v =>
        if isDisposition v.disposition disposition then acc ++ [(groupKey v, b.name)]
        else acc) acc) acc) []

/-- The pooled, filtered `all` slice of `groupViolationsMultiByDisposition`
(pages whose filtered violation list is empty are dropped). -/
def allResultsByDisposition (brs : List BrowserReport) (disposition : Str) :
    List ReportPageResult :=
  brs.foldl (fun acc b => acc ++ filterResultsByDisposition b.report.results disposition) []

/-- `main.go` `groupViolationsMultiByDisposition` (iteration orders explicit,
as in `groupViolationsMulti`). -/
def groupViolationsMultiByDisposition (brs : List BrowserReport) (disposition : Str)
    (keyOrder : List Str) (nameOrders : Str → List Str) : List MergedGroup :=
  let grouped := groupViolations (allResultsByDisposition brs disposition) keyOrder
  grouped.map (fun g => { group := g, browsers := selSort okName (nameOrders g.key) })

/-!  ## `main.go`: probe orchestration (`runCSPCheck`)  -/

/-- The observable outcome of one engine's probe process, as seen by
`runCSPCheck`: whether `cmd.Start()` succeeded; the process exit code
(`exitCodeFromState`; `cmd.Wait()` returns a non-nil error exactly when the
started process exits non-zero); whether the declared output file exists and
is readable; and whether its contents unmarshal as a `Report`. -/
structure EngineOutcome where
  startOk : Bool := true
  exitCode : Nat := 0
  fileOk : Bool := true
  parseOk : Bool := true
  deriving DecidableEq, Repr, Inhabited

/-- The per-engine loop of `main.go` `runCSPCheck`, carrying the `maxExit`
accumulator.  `Except.error c` models `return MultiReport{}, c, err`
(an error return with exit code `c`); `Except.ok c` models the final
`return multi, maxExit, nil`.  Branches, in source order: `cmd.Start()`
failure returns code 0; a non-zero exit with no output file returns that
code; a missing output file (`os.ReadFile`) or an unparseable one
(`json.Unmarshal`) returns the engine's code. -/
def runCSPCheckLoop : List EngineOutcome → Nat → Except Nat Nat
  | [], maxExit => Except.ok maxExit
  | o :: rest, maxExit =>
    if !o.startOk then Except.error 0
    else
      let exitCode := o.exitCode
      let maxExit := if exitCode > maxExit then exitCode else maxExit
      if exitCode != 0 && !o.fileOk then Except.error exitCode
      else if !o.fileOk then Except.error exitCode
      else if !o.parseOk then Except.error exitCode
      else runCSPCheckLoop rest maxExit

/-- `main.go` `runCSPCheck`, as a function of the per-engine process
outcomes (one entry per configured engine, in the fixed engine order). -/
def runCSPCheck (outs : List EngineOutcome) : Except Nat Nat :=
  runCSPCheckLoop outs 0

/-!  ## `csp-check.mjs`: per-page dedup (`checkUrl`)  -/

/-- `csp-check.mjs` normalized violation record (output of
`normalizeViolation`): every field is nullable. -/
structure ViolationN where
  documentURI : Option Str := none
  referrer : Option Str := none
  blockedURI : Option Str := none
  blockedOrigin : Option Str := none
  effectiveDirective : Option Str := none
  violatedDirective : Option Str := none
  originalPolicy : Option Str := none
  disposition : Option Str := none
  statusCode : Option Int := none
  sourceFile : Option Str := none
  lineNumber : Option Int := none
  columnNumber : Option Int := none
  sample : Option Str := none
  deriving DecidableEq, Repr, Inhabited

/-- JS `Array.prototype.join` element rendering for a nullable string:
`null` renders as the empty string. -/
def joinStr (o : Option Str) : Str := o.getD []

/-- JS `Array.prototype.join` element rendering for a nullable number:
`null` renders as the empty string, a number in decimal. -/
def joinNum (o : Option Int) : Str :=
  match o with
  | none => []
  | some n => (toString n).data

/-- `csp-check.mjs` `violationKey`: the five key fields joined with `"|"`. -/
def violationKey (v : ViolationN) : Str :=
  joinStr v.effectiveDirective ++ '|' :: joinStr v.blockedURI ++ '|' ::
    joinStr v.sourceFile ++ '|' :: joinNum v.lineNumber ++ '|' :: joinNum v.columnNumber

/-- The dedup tuple named by the spec:
`(effectiveDirective, blockedURI, sourceFile, lineNumber, columnNumber)`. -/
def keyTuple (v : ViolationN) :
    Option Str × Option Str × Option Str × Option Int × Option Int :=
  (v.effectiveDirective, v.blockedURI, v.sourceFile, v.lineNumber, v.columnNumber)

/-- `csp-check.mjs` `normalizeDisposition`: `String(d || "")` lowercased;
anything containing `report` is `report-only`, exactly `enforce` is
`enforce`, all else the empty string. -/
def normalizeDisposition (d : Option Str) : Str :=
  let val := toLowerStr (d.getD [])
  if strContains val (("report").data) then ("report-only").data
  else if val = ("enforce").data then ("enforce").data
  else []

/-- `csp-check.mjs` `mergeViolation`: prefer the record with the more certain
disposition — `enforce` beats `report-only` beats unknown; ties keep `a`. -/
def mergeViolation (a b : ViolationN) : ViolationN :=
  let da := normalizeDisposition a.disposition
  let db := normalizeDisposition b.disposition
  if da = ("enforce").data ∨ db = ("enforce").data then
    if da = ("enforce").data then a else b
  else if da = ("report-only").data ∨ db = ("report-only").data then
    if da = ("report-only").data then a else b
  else a

/-- One step of `checkUrl`'s dedup loop over the `uniq` JS `Map`: first sight
of a key inserts the record, a repeat merges into the existing entry
(keeping its position, as `Map.prototype.set` does). -/
def dedupStep (acc : List (Str × ViolationN)) (v : ViolationN) : List (Str × ViolationN) :=
  let key := violationKey v
  match lookupA key acc with
  | none => acc ++ [(key, v)]
  | some existing => updateA key (mergeViolation existing v) acc

/-- The deduplication step of `csp-check.mjs` `checkUrl`: fold the normalized
events into the `uniq` map and return `[...uniq.values()]`. -/
def checkUrlDedup (events : List ViolationN) : List ViolationN :=
  (events.foldl dedupStep []).map Prod.snd

/-!  ## Aggregate helpers used in claim statements  -/

/-- Sum of the violation-list lengths across a group's pages mapping. -/
def pagesLen (l : List (Str × List Violation)) : Nat :=
  (l.map (fun p => p.2.length)).sum

/-- Worst-case exit code accumulation of `runCSPCheck` (`maxExit`). -/
def maxExitOf (outs : List EngineOutcome) : Nat :=
  outs.foldl (fun m o => max m o.exitCode) 0

/-- There is an event for key `k` whose disposition normalizes to `enforce`. -/
abbrev hasEnf (l : List ViolationN) (k : Str) : Prop :=
  ∃ v ∈ l, violationKey v = k ∧ normalizeDisposition v.disposition = ("enforce").data

/-- There is an event for key `k` whose disposition normalizes to
`report-only`. -/
abbrev hasRep (l : List ViolationN) (k : Str) : Prop :=
  ∃ v ∈ l, violationKey v = k ∧ normalizeDisposition v.disposition = ("report-only").data

/-- Invariant of `checkUrlDedup`'s fold over the `uniq` map: entries are
keyed by their own `violationKey`, keys are distinct and cover exactly the
keys of the events processed so far, and each entry's normalized disposition
is `enforce`/`report-only` exactly when the processed events for its key
warrant it. -/
def DedupInv (processed : List ViolationN) (acc : List (Str × ViolationN)) : Prop :=
  (∀ q ∈ acc, violationKey q.2 = q.1) ∧
  (keysA acc).Nodup ∧
  (∀ k : Str, (∃ w ∈ processed, violationKey w = k) ↔ k ∈ keysA acc) ∧
  ∀ q ∈ acc,
    (normalizeDisposition q.2.disposition = ("enforce").data ↔ hasEnf processed q.1) ∧
    (normalizeDisposition q.2.disposition = ("report-only").data ↔
      (¬ hasEnf processed q.1 ∧ hasRep processed q.1))

/-!  ## Concrete data for witnesses and counterexamples  -/

/-- An `img-src` violation blocked at `https://cdn.example` (disposition
unset, i.e. the enforce bucket). -/
def vImg : Violation :=
  { effectiveDirective := ("img-src").data, blockedOrigin := ("https://cdn.example").data }

/-- A `script-src` violation blocked at `https://evil.example`. -/
def vScript : Violation :=
  { effectiveDirective := ("script-src").data, blockedOrigin := ("https://evil.example").data }

/-- The group key of `vImg`. -/
def kImg : Str := ("img-src -> https://cdn.example").data

/-- The group key of `vScript`. -/
def kScript : Str := ("script-src -> https://evil.example").data

/-- One page carrying one `img-src` and one `script-src` violation: its two
groups have equal counts (a sort tie). -/
def tiePage : ReportPageResult :=
  { url := ("https://page.example/").data, violations := [vImg, vScript] }

/-- Two pages sharing the key `img-src -> https://cdn.example`, with three
and two violations respectively (the spec's Scenario D). -/
def scenarioD : List ReportPageResult :=
  [ { url := ("https://a.example/").data, violations := [vImg, vImg, vImg] }
  , { url := ("https://b.example/").data, violations := [vImg, vImg] } ]

/-- The single group produced by `scenarioD`. -/
def scenarioDGroup : GroupedViolation :=
  { key := kImg
  , effectiveDirective := ("img-src").data
  , blockedOrigin := ("https://cdn.example").data
  , count := 5
  , pages := [ (("https://a.example/").data, [vImg, vImg, vImg])
             , (("https://b.example/").data, [vImg, vImg]) ] }

/-- Two engines both exhibiting the `img-src` group. -/
def demoBrowserReports : List BrowserReport :=
  [ { name := ("firefox").data
    , report := { results := [{ url := ("https://page.example/").data, violations := [vImg] }] } }
  , { name := ("chromium").data
    , report := { results := [{ url := ("https://page.example/").data, violations := [vImg] }] } } ]

/-- A canonical (first-insertion order) name-set iteration for
`groupViolationsMulti` on `demoBrowserReports`. -/
def demoNameOrders : Str → List Str :=
  fun k => (lookupA k (groupBrowsersOf (multiPairs demoBrowserReports))).getD []

/-- A canonical name-set iteration for `groupViolationsMultiByDisposition`
on `demoBrowserReports` with the `enforce` partition. -/
def demoNameOrdersEnforce : Str → List Str :=
  fun k => (lookupA k (groupBrowsersOf
    (multiPairsByDisposition demoBrowserReports (("enforce").data)))).getD []

/-- An engine that started, exited zero, but left no readable output file. -/
def engineNoFile : EngineOutcome := { exitCode := 0, fileOk := false }

/-- Two healthy engines, one reporting violations (exit 1), one clean. -/
def demoEngines : List EngineOutcome := [{ exitCode := 1 }, {}]

/-- A raw event with no disposition. -/
def evUnknown : ViolationN :=
  { effectiveDirective := some (("img-src").data)
  , blockedURI := some (("https://cdn.example/x.png").data)
  , sourceFile := some (("https://page.example/").data)
  , lineNumber := some 10
  , columnNumber := some 4 }

/-- The same event observed again with disposition `enforce`. -/
def evEnforce : ViolationN :=
  { evUnknown with disposition := some (("enforce").data) }

/-- Violations with the three recognized disposition spellings. -/
def dispDemo : List Violation :=
  [ { disposition := ("enforce").data }
  , { disposition := ("report-only").data }
  , { disposition := [] } ]

/-- A stored profile JSON with every repairable field invalid
(`navTimeoutMs: -5` as in the spec's Scenario A). -/
def demoStored : StoredConfig :=
  { waitUntil := some []
  , navTimeoutMs := some (-5)
  , settleWaitMs := some (-1)
  , concurrency := some 0
  , betweenUrlMs := some (-3)
  , userAgent := some []
  , acceptLanguage := some [] }

/-- The merged group produced by `demoBrowserReports` (count 2: one `img-src`
violation per engine on the same page). -/
def demoMerged : MergedGroup :=
  { group :=
      { key := kImg
      , effectiveDirective := ("img-src").data
      , blockedOrigin := ("https://cdn.example").data
      , count := 2
      , pages := [(("https://page.example/").data, [vImg, vImg])] }
  , browsers := [("chromium").data, ("firefox").data] }

/-!  ## Lemmas: the in-place double-loop sort  -/

theorem innerPass_snd_length {α : Type} (ok : α → α → Bool) (x : α) (t : List α) :
    ((innerPass ok x t).2).length = t.length := by
  induction t generalizing x with
  | nil => simp [innerPass]
  | cons y t ih =>
    by_cases h : ok x y
    · simp [innerPass, h, ih]
    · simp [innerPass, h, ih]

theorem innerPass_perm {α : Type} (ok : α → α → Bool) (x : α) (t : List α) :
    ((innerPass ok x t).1 :: (innerPass ok x t).2).Perm (x :: t) := by
  induction t generalizing x with
  | nil => simp [innerPass]
  | cons y t ih =>
    by_cases h : ok x y
    · simp only [innerPass, h, if_true]
      exact ((List.Perm.swap _ _ _).trans ((ih x).cons y)).trans (List.Perm.swap _ _ _)
    · simp only [innerPass, h, if_false]
      exact ((List.Perm.swap _ _ _).trans ((ih y).cons x)).trans (List.Perm.refl _)

theorem innerPass_head_ok {α : Type} (ok : α → α → Bool)
    (htot : ∀ a b, ok a b = true ∨ ok b a = true)
    (htrans : ∀ a b c, ok a b = true → ok b c = true → ok a c = true)
    (x : α) (t : List α) :
    ok (innerPass ok x t).1 x = true ∧
      ∀ y ∈ (innerPass ok x t).2, ok (innerPass ok x t).1 y = true := by
  induction t generalizing x with
  | nil =>
    refine ⟨?_, by simp [innerPass]⟩
    have := htot x x
    simpa [innerPass] using this.elim id id
  | cons y t ih =>
    by_cases h : ok x y
    · have he : innerPass ok x (y :: t) =
          ((innerPass ok x t).1, y :: (innerPass ok x t).2) := by
        simp [innerPass, h]
      obtain ⟨h1, h2⟩ := ih x
      rw [he]
      refine ⟨h1, ?_⟩
      intro z hz
      rcases List.mem_cons.mp hz with rfl | hz
      · exact htrans _ _ _ h1 h
      · exact h2 z hz
    · have hyx : ok y x = true := (htot x y).resolve_left (by simpa using h)
      have he : innerPass ok x (y :: t) =
          ((innerPass ok y t).1, x :: (innerPass ok y t).2) := by
        simp [innerPass, h]
      obtain ⟨h1, h2⟩ := ih y
      rw [he]
      refine ⟨htrans _ _ _ h1 hyx, ?_⟩
      intro z hz
      rcases List.mem_cons.mp hz with rfl | hz
      · exact htrans _ _ _ h1 hyx
      · exact h2 z hz

theorem selSortAux_perm {α : Type} (ok : α → α → Bool) (n : Nat) (l : List α)
    (h : l.length ≤ n) : (selSortAux ok n l).Perm l := by
  induction n generalizing l with
  | zero => simp [selSortAux]
  | succ n ih =>
    cases l with
    | nil => simp [selSortAux]
    | cons x t =>
      simp only [selSortAux]
      have hlen : ((innerPass ok x t).2).length ≤ n := by
        rw [innerPass_snd_length]
        simpa using Nat.le_of_succ_le_succ h
      exact ((ih _ hlen).cons _).trans (innerPass_perm ok x t)

theorem selSort_perm {α : Type} (ok : α → α → Bool) (l : List α) :
    (selSort ok l).Perm l :=
  selSortAux_perm ok l.length l le_rfl

theorem selSortAux_sorted {α : Type} (ok : α → α → Bool)
    (htot : ∀ a b, ok a b = true ∨ ok b a = true)
    (htrans : ∀ a b c, ok a b = true → ok b c = true → ok a c = true)
    (n : Nat) (l : List α) (h : l.length ≤ n) :
    (selSortAux ok n l).Pairwise (fun a b => ok a b = true) := by
  induction n generalizing l with
  | zero =>
    have : l = [] := List.length_eq_zero.mp (Nat.le_zero.mp h)
    simp [selSortAux, this]
  | succ n ih =>
    cases l with
    | nil => simp [selSortAux]
    | cons x t =>
      simp only [selSortAux]
      have hlen : ((innerPass ok x t).2).length ≤ n := by
        rw [innerPass_snd_length]
        simpa using Nat.le_of_succ_le_succ h
      refine List.Pairwise.cons ?_ (ih _ hlen)
      intro z hz
      have hz' : z ∈ (innerPass ok x t).2 := (selSortAux_perm ok n _ hlen).mem_iff.mp hz
      exact (innerPass_head_ok ok htot htrans x t).2 z hz'

theorem selSort_sorted {α : Type} (ok : α → α → Bool)
    (htot : ∀ a b, ok a b = true ∨ ok b a = true)
    (htrans : ∀ a b c, ok a b = true → ok b c = true → ok a c = true)
    (l : List α) : (selSort ok l).Pairwise (fun a b => ok a b = true) :=
  selSortAux_sorted ok htot htrans l.length l le_rfl

/-!  ## Lemmas: the lexicographic string order  -/

theorem lexLt_irrefl (a : Str) : lexLt a a = false := by
  induction a with
  | nil => rfl
  | cons c t ih => simp [lexLt, ih]

theorem lexLt_asymm (a b : Str) (h : lexLt a b = true) : lexLt b a = false := by
  induction a generalizing b with
  | nil =>
    cases b with
    | nil => simp [lexLt] at h
    | cons d bs => rfl
  | cons c t ih =>
    cases b with
    | nil => simp [lexLt] at h
    | cons d bs =>
      by_cases hcd : c < d
      · have hdc : ¬ d < c := lt_asymm hcd
        simp [lexLt, hcd, hdc]
      · by_cases hdc : d < c
        · simp [lexLt, hcd, hdc] at h
        · simp only [lexLt, if_neg hcd, if_neg hdc] at h ⊢
          exact ih bs h

theorem lexLt_trans (a b c : Str) (hab : lexLt a b = true) (hbc : lexLt b c = true) :
    lexLt a c = true := by
  induction a generalizing b c with
  | nil =>
    cases b with
    | nil => simp [lexLt] at hab
    | cons d bs =>
      cases c with
      | nil => simp [lexLt] at hbc
      | cons e cs => rfl
  | cons x t ih =>
    cases b with
    | nil => simp [lexLt] at hab
    | cons d bs =>
      cases c with
      | nil => simp [lexLt] at hbc
      | cons e cs =>
        by_cases hxd : x < d
        · by_cases hde : d < e
          · simp [lexLt, lt_trans hxd hde]
          · by_cases hed : e < d
            · simp [lexLt, hde, hed] at hbc
            · have hde' : d = e := le_antisymm (not_lt.mp hed) (not_lt.mp hde)
              subst hde'
              simp [lexLt, hxd]
        · by_cases hdx : d < x
          · simp [lexLt, hxd, hdx] at hab
          · have hxd' : x = d := le_antisymm (not_lt.mp hdx) (not_lt.mp hxd)
            subst hxd'
            simp only [lexLt, if_neg hxd, if_neg hdx] at hab
            by_cases hxe : x < e
            · simp [lexLt, hxe]
            · by_cases hex : e < x
              · simp [lexLt, hxe, hex] at hbc
              · simp only [lexLt, if_neg hxe, if_neg hex] at hbc ⊢
                exact ih bs cs hab hbc

theorem lexLt_connex (a b : Str) : lexLt a b = true ∨ a = b ∨ lexLt b a = true := by
  induction a generalizing b with
  | nil =>
    cases b with
    | nil => exact Or.inr (Or.inl rfl)
    | cons d bs => exact Or.inl rfl
  | cons c t ih =>
    cases b with
    | nil => exact Or.inr (Or.inr rfl)
    | cons d bs =>
      rcases lt_trichotomy c d with hcd | hcd | hcd
      · exact Or.inl (by simp [lexLt, hcd])
      · subst hcd
        rcases ih bs with h | h | h
        · exact Or.inl (by simp [lexLt, h])
        · exact Or.inr (Or.inl (by rw [h]))
        · exact Or.inr (Or.inr (by simp [lexLt, h]))
      · exact Or.inr (Or.inr (by simp [lexLt, hcd, lt_asymm hcd]))

/-!  ## Lemmas: the two sort orders of `main.go`  -/

theorem okCount_total (a b : GroupedViolation) : okCount a b = true ∨ okCount b a = true := by
  simp only [okCount, decide_eq_true_eq]
  omega

theorem okCount_trans (a b c : GroupedViolation)
    (h1 : okCount a b = true) (h2 : okCount b c = true) : okCount a c = true := by
  simp only [okCount, decide_eq_true_eq] at h1 h2 ⊢
  omega

theorem okName_total (a b : Str) : okName a b = true ∨ okName b a = true := by
  simp only [okName, Bool.not_eq_true']
  by_cases h : lexLt b a = true
  · exact Or.inr (lexLt_asymm b a h)
  · exact Or.inl (by simpa using h)

theorem okName_trans (a b c : Str)
    (h1 : okName a b = true) (h2 : okName b c = true) : okName a c = true := by
  simp only [okName, Bool.not_eq_true'] at h1 h2 ⊢
  by_contra hca
  have hca' : lexLt c a = true := by simpa using hca
  rcases lexLt_connex a b with h | h | h
  · have : lexLt c b = true := lexLt_trans c a b hca' h
    rw [this] at h2
    exact Bool.true_eq_false.mp (h2.symm ▸ rfl)
  · subst h
    rw [hca'] at h2
    simp at h2
  · rw [h] at h1
    simp at h1

theorem okName_of_ne (a b : Str) (hok : okName a b = true) (hne : a ≠ b) :
    lexLt a b = true := by
  simp only [okName, Bool.not_eq_true'] at hok
  rcases lexLt_connex a b with h | h | h
  · exact h
  · exact absurd h hne
  · rw [h] at hok
    exact absurd hok (by simp)

/-!  ## Lemmas: association lists  -/

theorem lookupA_mem {α : Type} (k : Str) (l : List (Str × α)) (v : α)
    (h : lookupA k l = some v) : (k, v) ∈ l := by
  induction l with
  | nil => simp [lookupA] at h
  | cons p t ih =>
    obtain ⟨p1, p2⟩ := p
    by_cases hp : p1 = k
    · subst hp
      simp only [lookupA, if_pos] at h
      have h' : p2 = v := by simpa using h
      subst h'
      exact List.mem_cons_self _ _
    · simp only [lookupA, if_neg hp] at h
      exact List.mem_cons_of_mem _ (ih h)

theorem lookupA_eq_none {α : Type} (k : Str) (l : List (Str × α)) :
    lookupA k l = none ↔ k ∉ keysA l := by
  induction l with
  | nil => simp [lookupA, keysA]
  | cons p t ih =>
    by_cases hp : p.1 = k
    · simp only [lookupA, if_pos hp, keysA, List.map_cons, List.mem_cons]
      constructor
      · intro h
        exact absurd h (by simp)
      · intro h
        exact absurd (Or.inl hp.symm) h
    · simp only [lookupA, if_neg hp, keysA, List.map_cons, List.mem_cons]
      constructor
      · intro h hmem
        rcases hmem with h' | h'
        · exact hp h'.symm
        · exact (ih.mp h) h'
      · intro h
        exact ih.mpr (fun hm => h (Or.inr hm))

theorem keysA_updateA {α : Type} (k : Str) (v : α) (l : List (Str × α)) :
    keysA (updateA k v l) = keysA l := by
  induction l with
  | nil => rfl
  | cons p t ih =>
    by_cases hp : p.1 = k
    · simp [updateA, hp, keysA]
    · simp only [updateA, if_neg hp, keysA, List.map_cons]
      exact congrArg _ ih

theorem mem_updateA {α : Type} (k : Str) (v : α) (l : List (Str × α)) (q : Str × α)
    (h : q ∈ updateA k v l) : q = (k, v) ∨ (q ∈ l ∧ q.1 ≠ k) ∨ q ∈ l := by
  induction l with
  | nil => simp [updateA] at h
  | cons p t ih =>
    by_cases hp : p.1 = k
    · simp only [updateA, if_pos hp, List.mem_cons] at h
      rcases h with rfl | h
      · exact Or.inl rfl
      · exact Or.inr (Or.inr (List.mem_cons_of_mem _ h))
    · simp only [updateA, if_neg hp, List.mem_cons] at h
      rcases h with rfl | h
      · exact Or.inr (Or.inr (List.mem_cons_self _ _))
      · rcases ih h with h' | h' | h'
        · exact Or.inl h'
        · exact Or.inr (Or.inl ⟨List.mem_cons_of_mem _ h'.1, h'.2⟩)
        · exact Or.inr (Or.inr (List.mem_cons_of_mem _ h'))

theorem mem_updateA_of_ne {α : Type} (k : Str) (v : α) (l : List (Str × α)) (q : Str × α)
    (h : q ∈ updateA k v l) (hne : q.1 ≠ k) : q ∈ l := by
  induction l with
  | nil => simp [updateA] at h
  | cons p t ih =>
    by_cases hp : p.1 = k
    · simp only [updateA, if_pos hp, List.mem_cons] at h
      rcases h with rfl | h
      · exact absurd rfl hne
      · exact List.mem_cons_of_mem _ h
    · simp only [updateA, if_neg hp, List.mem_cons] at h
      rcases h with rfl | h
      · exact List.mem_cons_self _ _
      · exact List.mem_cons_of_mem _ (ih h)

/-!  ## Lemmas: `groupViolations`'s map building  -/

theorem pagesAdd_len (url : Str) (v : Violation) (l : List (Str × List Violation)) :
    pagesLen (addViolation.pagesAdd url v l) = pagesLen l + 1 := by
  induction l with
  | nil => simp [addViolation.pagesAdd, pagesLen]
  | cons p t ih =>
    obtain ⟨u, vs⟩ := p
    by_cases hu : u = url
    · simp [addViolation.pagesAdd, hu, pagesLen]
      omega
    · simp only [addViolation.pagesAdd, if_neg hu, pagesLen, List.map_cons, List.sum_cons] at ih ⊢
      omega

theorem addViolation_eq_some (acc : List (Str × GroupedViolation)) (url : Str)
    (v : Violation) (g : GroupedViolation) (hl : lookupA (groupKey v) acc = some g) :
    addViolation acc url v =
      updateA (groupKey v)
        { g with count := g.count + 1, pages := addViolation.pagesAdd url v g.pages } acc := by
  simp [addViolation, hl]

theorem addViolation_eq_none (acc : List (Str × GroupedViolation)) (url : Str)
    (v : Violation) (hl : lookupA (groupKey v) acc = none) :
    addViolation acc url v =
      acc ++ [(groupKey v,
        { key := groupKey v
        , effectiveDirective := v.effectiveDirective
        , blockedOrigin := v.blockedOrigin
        , count := 1
        , pages := [(url, [v])] })] := by
  simp [addViolation, hl]

theorem addViolation_count (acc : List (Str × GroupedViolation)) (url : Str) (v : Violation)
    (h : ∀ q ∈ acc, q.2.count = pagesLen q.2.pages) :
    ∀ q ∈ addViolation acc url v, q.2.count = pagesLen q.2.pages := by
  intro q hq
  cases hl : lookupA (groupKey v) acc with
  | some g =>
    rw [addViolation_eq_some acc url v g hl] at hq
    rcases mem_updateA _ _ _ _ hq with rfl | h' | h'
    · have hg := h _ (lookupA_mem _ _ _ hl)
      simp only at hg ⊢
      rw [pagesAdd_len, hg]
    · exact h _ h'.1
    · exact h _ h'
  | none =>
    rw [addViolation_eq_none acc url v hl] at hq
    rcases List.mem_append.mp hq with h' | h'
    · exact h _ h'
    · simp only [List.mem_singleton] at h'
      subst h'
      simp [pagesLen, pagesAdd_len]

theorem buildGroups_count (results : List ReportPageResult) :
    ∀ q ∈ buildGroups results, q.2.count = pagesLen q.2.pages := by
  unfold buildGroups
  generalize pageViolationPairs results = pairs
  have main : ∀ (pairs : List (Str × Violation)) (acc : List (Str × GroupedViolation)),
      (∀ q ∈ acc, q.2.count = pagesLen q.2.pages) →
      ∀ q ∈ pairs.foldl (fun acc p => addViolation acc p.1 p.2) acc,
        q.2.count = pagesLen q.2.pages := by
    intro pairs
    induction pairs with
    | nil => intro acc h q hq; exact h q hq
    | cons p t ih =>
      intro acc h q hq
      exact ih _ (addViolation_count acc p.1 p.2 h) q hq
  exact main pairs [] (by simp)

/-!  ## Lemmas: `runCSPCheck`  -/

theorem runCSPCheckLoop_ok_iff (outs : List EngineOutcome) (acc : Nat) :
    (runCSPCheckLoop outs acc).isOk = true ↔
      ∀ o ∈ outs, o.startOk = true ∧ o.fileOk = true ∧ o.parseOk = true := by
  induction outs generalizing acc with
  | nil => simp [runCSPCheckLoop, Except.isOk, Except.toBool]
  | cons o rest ih =>
    by_cases hs : o.startOk
    · by_cases hf : o.fileOk
      · by_cases hp : o.parseOk
        · simp [runCSPCheckLoop, hs, hf, hp, ih]
        · simp [runCSPCheckLoop, hs, hf, hp, Except.isOk, Except.toBool]
      · by_cases hz : o.exitCode = 0
        · simp [runCSPCheckLoop, hs, hf, hz, Except.isOk, Except.toBool]
        · simp [runCSPCheckLoop, hs, hf, hz, Except.isOk, Except.toBool]
    · simp [runCSPCheckLoop, hs, Except.isOk, Except.toBool]

theorem runCSPCheckLoop_ok_val (outs : List EngineOutcome) (acc c : Nat)
    (h : runCSPCheckLoop outs acc = Except.ok c) :
    c = outs.foldl (fun m o => max m o.exitCode) acc := by
  induction outs generalizing acc with
  | nil =>
    simp only [runCSPCheckLoop, Except.ok.injEq] at h
    simp [h]
  | cons o rest ih =>
    by_cases hs : o.startOk
    · by_cases hf : o.fileOk
      · by_cases hp : o.parseOk
        · simp only [runCSPCheckLoop, hs, hf, hp, Bool.not_true, Bool.false_eq_true,
            if_false, Bool.and_false, Bool.and_true] at h
          have hmax : (if o.exitCode > acc then o.exitCode else acc) = max acc o.exitCode := by
            split <;> omega
          simp only [List.foldl_cons]
          rw [← hmax]
          apply ih
          simpa [hmax] using h
        · simp [runCSPCheckLoop, hs, hf, hp] at h
      · by_cases hz : o.exitCode = 0
        · simp [runCSPCheckLoop, hs, hf, hz] at h
        · simp [runCSPCheckLoop, hs, hf, hz] at h
    · simp [runCSPCheckLoop, hs] at h

theorem foldl_max_eq_zero (outs : List EngineOutcome) (acc : Nat) :
    outs.foldl (fun m o => max m o.exitCode) acc = 0 ↔
      acc = 0 ∧ ∀ o ∈ outs, o.exitCode = 0 := by
  induction outs generalizing acc with
  | nil => simp
  | cons o rest ih =>
    simp only [List.foldl_cons, ih, Nat.max_eq_zero_iff, List.mem_cons]
    constructor
    · rintro ⟨⟨h1, h2⟩, h3⟩
      refine ⟨h1, ?_⟩
      rintro o' (rfl | ho')
      · exact h2
      · exact h3 o' ho'
    · rintro ⟨h1, h2⟩
      exact ⟨⟨h1, h2 o (Or.inl rfl)⟩, fun o' ho' => h2 o' (Or.inr ho')⟩

/-!  ## Lemmas: engine-name sets  -/

theorem setAdd_nodup (key name : Str) (l : List (Str × List Str))
    (h : ∀ q ∈ l, q.2.Nodup) : ∀ q ∈ setAdd key name l, q.2.Nodup := by
  induction l with
  | nil =>
    intro q hq
    simp only [setAdd, List.mem_singleton] at hq
    subst hq
    simp
  | cons p t ih =>
    obtain ⟨k, ns⟩ := p
    intro q hq
    by_cases hk : k = key
    · simp only [setAdd, if_pos hk, List.mem_cons] at hq
      rcases hq with rfl | hq
      · by_cases hmem : name ∈ ns
        · simpa [hmem] using h (k, ns) (List.mem_cons_self _ _)
        · simp only [if_neg hmem]
          have hns : ns.Nodup := h (k, ns) (List.mem_cons_self _ _)
          simp [List.nodup_append, hns, hmem]
      · exact h q (List.mem_cons_of_mem _ hq)
    · simp only [setAdd, if_neg hk, List.mem_cons] at hq
      rcases hq with rfl | hq
      · exact h (k, ns) (List.mem_cons_self _ _)
      · exact ih (fun q' hq' => h q' (List.mem_cons_of_mem _ hq')) q hq

theorem groupBrowsersOf_nodup (pairs : List (Str × Str)) :
    ∀ q ∈ groupBrowsersOf pairs, q.2.Nodup := by
  unfold groupBrowsersOf
  have main : ∀ (pairs : List (Str × Str)) (acc : List (Str × List Str)),
      (∀ q ∈ acc, q.2.Nodup) →
      ∀ q ∈ pairs.foldl (fun acc p => setAdd p.1 p.2 acc) acc, q.2.Nodup := by
    intro pairs
    induction pairs with
    | nil => intro acc h q hq; exact h q hq
    | cons p t ih =>
      intro acc h q hq
      exact ih _ (setAdd_nodup p.1 p.2 acc h) q hq
  exact main pairs [] (by simp)

/-!  ## Lemmas: the per-page dedup of `checkUrl`  -/

theorem normD_cases (d : Option Str) :
    normalizeDisposition d = ("enforce").data ∨
      normalizeDisposition d = ("report-only").data ∨ normalizeDisposition d = [] := by
  by_cases h1 : strContains (toLowerStr (d.getD [])) (("report").data)
  · simp [normalizeDisposition, h1]
  · by_cases h2 : toLowerStr (d.getD []) = ("enforce").data
    · have hc : strContains (("enforce").data) (("report").data) = false := by decide
      simp [normalizeDisposition, h1, h2, hc]
    · simp [normalizeDisposition, h1, h2]

theorem mergeViolation_eq_or (a b : ViolationN) :
    mergeViolation a b = a ∨ mergeViolation a b = b := by
  simp only [mergeViolation]
  split_ifs <;> simp

theorem merge_normD_enf (a b : ViolationN) :
    normalizeDisposition (mergeViolation a b).disposition = ("enforce").data ↔
      (normalizeDisposition a.disposition = ("enforce").data ∨
        normalizeDisposition b.disposition = ("enforce").data) := by
  have e2 : ¬((("report-only").data : Str) = ("enforce").data) := by decide
  have e4 : ¬((("enforce").data : Str) = ("report-only").data) := by decide
  have e3 : ¬(([] : Str) = ("enforce").data) := by decide
  have e5 : ¬(([] : Str) = ("report-only").data) := by decide
  rcases normD_cases a.disposition with ha | ha | ha <;>
    rcases normD_cases b.disposition with hb | hb | hb <;>
      simp [mergeViolation, ha, hb, e2, e3, e4, e5]

theorem merge_normD_rep (a b : ViolationN) :
    normalizeDisposition (mergeViolation a b).disposition = ("report-only").data ↔
      (¬(normalizeDisposition a.disposition = ("enforce").data ∨
          normalizeDisposition b.disposition = ("enforce").data) ∧
        (normalizeDisposition a.disposition = ("report-only").data ∨
          normalizeDisposition b.disposition = ("report-only").data)) := by
  have e2 : ¬((("report-only").data : Str) = ("enforce").data) := by decide
  have e4 : ¬((("enforce").data : Str) = ("report-only").data) := by decide
  have e3 : ¬(([] : Str) = ("enforce").data) := by decide
  have e5 : ¬(([] : Str) = ("report-only").data) := by decide
  rcases normD_cases a.disposition with ha | ha | ha <;>
    rcases normD_cases b.disposition with hb | hb | hb <;>
      simp [mergeViolation, ha, hb, e2, e3, e4, e5]

theorem violationKey_of_tuple (a b : ViolationN) (h : keyTuple a = keyTuple b) :
    violationKey a = violationKey b := by
  simp only [keyTuple, Prod.mk.injEq] at h
  obtain ⟨h1, h2, h3, h4, h5⟩ := h
  simp [violationKey, h1, h2, h3, h4, h5]

theorem exists_mem_append_singleton {P : ViolationN → Prop} (l : List ViolationN)
    (v : ViolationN) : (∃ w ∈ l ++ [v], P w) ↔ (∃ w ∈ l, P w) ∨ P v := by
  constructor
  · rintro ⟨w, hw, hP⟩
    rcases List.mem_append.mp hw with hw | hw
    · exact Or.inl ⟨w, hw, hP⟩
    · rw [List.mem_singleton] at hw
      subst hw
      exact Or.inr hP
  · rintro (⟨w, hw, hP⟩ | hP)
    · exact ⟨w, List.mem_append_left _ hw, hP⟩
    · exact ⟨v, List.mem_append_right _ (List.mem_singleton_self v), hP⟩

theorem mem_updateA_strong {α : Type} (k : Str) (v : α) (l : List (Str × α)) (q : Str × α)
    (hnd : (keysA l).Nodup) (h : q ∈ updateA k v l) :
    q = (k, v) ∨ (q ∈ l ∧ q.1 ≠ k) := by
  induction l with
  | nil => simp [updateA] at h
  | cons p t ih =>
    have hnd0 := hnd
    simp only [keysA, List.map_cons, List.nodup_cons] at hnd0
    obtain ⟨hp_not, hnd'⟩ := hnd0
    rw [show List.map Prod.fst t = keysA t from rfl] at hp_not hnd'
    by_cases hp : p.1 = k
    · simp only [updateA, if_pos hp, List.mem_cons] at h
      rcases h with rfl | h
      · exact Or.inl rfl
      · refine Or.inr ⟨List.mem_cons_of_mem _ h, ?_⟩
        intro hqk
        apply hp_not
        rw [hp, ← hqk]
        exact List.mem_map_of_mem Prod.fst h
    · simp only [updateA, if_neg hp, List.mem_cons] at h
      rcases h with rfl | h
      · exact Or.inr ⟨List.mem_cons_self _ _, hp⟩
      · rcases ih hnd' h with h' | h'
        · exact Or.inl h'
        · exact Or.inr ⟨List.mem_cons_of_mem _ h'.1, h'.2⟩

theorem dedupStep_eq_none (acc : List (Str × ViolationN)) (v : ViolationN)
    (hl : lookupA (violationKey v) acc = none) :
    dedupStep acc v = acc ++ [(violationKey v, v)] := by
  simp [dedupStep, hl]

theorem dedupStep_eq_some (acc : List (Str × ViolationN)) (v ex : ViolationN)
    (hl : lookupA (violationKey v) acc = some ex) :
    dedupStep acc v = updateA (violationKey v) (mergeViolation ex v) acc := by
  simp [dedupStep, hl]

theorem dedupStep_inv (processed : List ViolationN) (acc : List (Str × ViolationN))
    (v : ViolationN) (h : DedupInv processed acc) :
    DedupInv (processed ++ [v]) (dedupStep acc v) := by
  obtain ⟨hkey, hnodup, hcover, hdisp⟩ := h
  have hEapp : ∀ k, hasEnf (processed ++ [v]) k ↔
      (hasEnf processed k ∨
        (violationKey v = k ∧ normalizeDisposition v.disposition = ("enforce").data)) :=
    fun k => exists_mem_append_singleton processed v
  have hRapp : ∀ k, hasRep (processed ++ [v]) k ↔
      (hasRep processed k ∨
        (violationKey v = k ∧ normalizeDisposition v.disposition = ("report-only").data)) :=
    fun k => exists_mem_append_singleton processed v
  cases hl : lookupA (violationKey v) acc with
  | none =>
    rw [dedupStep_eq_none acc v hl]
    have hknot : violationKey v ∉ keysA acc := (lookupA_eq_none _ _).mp hl
    have hkeysapp : keysA (acc ++ [(violationKey v, v)]) = keysA acc ++ [violationKey v] := by
      simp [keysA]
    refine ⟨?_, ?_, ?_, ?_⟩
    · intro q hq
      rcases List.mem_append.mp hq with hq | hq
      · exact hkey q hq
      · rw [List.mem_singleton] at hq
        subst hq
        rfl
    · rw [hkeysapp]
      refine List.Nodup.append hnodup (List.nodup_singleton _) ?_
      intro x hx hx'
      rw [List.mem_singleton] at hx'
      subst hx'
      exact hknot hx
    · intro k
      rw [exists_mem_append_singleton, hkeysapp, List.mem_append, List.mem_singleton]
      constructor
      · rintro (hold | hnew)
        · exact Or.inl ((hcover k).mp hold)
        · exact Or.inr hnew.symm
      · rintro (hk | hk)
        · exact Or.inl ((hcover k).mpr hk)
        · exact Or.inr hk.symm
    · intro q hq
      rcases List.mem_append.mp hq with hq | hq
      · have hqk : ¬(violationKey v = q.1) := by
          intro he
          exact hknot (he ▸ List.mem_map_of_mem Prod.fst hq)
        obtain ⟨hq1, hq2⟩ := hdisp q hq
        constructor
        · rw [hEapp, hq1]
          constructor
          · exact Or.inl
          · rintro (hh | ⟨he, _⟩)
            · exact hh
            · exact absurd he hqk
        · rw [hEapp, hRapp, hq2]
          constructor
          · rintro ⟨hne, hr⟩
            refine ⟨?_, Or.inl hr⟩
            rintro (hh | ⟨he, _⟩)
            · exact hne hh
            · exact hqk he
          · rintro ⟨hne, (hr | ⟨he, _⟩)⟩
            · exact ⟨fun hh => hne (Or.inl hh), hr⟩
            · exact absurd he hqk
      · rw [List.mem_singleton] at hq
        subst hq
        have hnotE : ¬ hasEnf processed (violationKey v) := by
          rintro ⟨w, hw, hwk, _⟩
          exact hknot ((hcover _).mp ⟨w, hw, hwk⟩)
        have hnotR : ¬ hasRep processed (violationKey v) := by
          rintro ⟨w, hw, hwk, _⟩
          exact hknot ((hcover _).mp ⟨w, hw, hwk⟩)
        dsimp only
        constructor
        · rw [hEapp]
          constructor
          · intro hd
            exact Or.inr ⟨rfl, hd⟩
          · rintro (he | ⟨_, he⟩)
            · exact absurd he hnotE
            · exact he
        · rw [hEapp, hRapp]
          constructor
          · intro hd
            refine ⟨?_, Or.inr ⟨rfl, hd⟩⟩
            rintro (he | ⟨_, he⟩)
            · exact hnotE he
            · rw [hd] at he
              exact absurd he (by decide)
          · rintro ⟨_, (hr | ⟨_, hr⟩)⟩
            · exact absurd hr hnotR
            · exact hr
  | some ex =>
    rw [dedupStep_eq_some acc v ex hl]
    have hexmem : (violationKey v, ex) ∈ acc := lookupA_mem _ _ _ hl
    have hexkey : violationKey ex = violationKey v := hkey _ hexmem
    have hkv_mem : violationKey v ∈ keysA acc := List.mem_map_of_mem Prod.fst hexmem
    have hdx := hdisp _ hexmem
    dsimp only at hdx
    obtain ⟨hd1, hd2⟩ := hdx
    refine ⟨?_, ?_, ?_, ?_⟩
    · intro q hq
      rcases mem_updateA_strong _ _ _ _ hnodup hq with rfl | ⟨hqa, _⟩
      · dsimp only
        rcases mergeViolation_eq_or ex v with hm | hm
        · rw [hm]
          exact hexkey
        · rw [hm]
      · exact hkey q hqa
    · rw [keysA_updateA]
      exact hnodup
    · intro k
      rw [exists_mem_append_singleton, keysA_updateA]
      constructor
      · rintro (hold | hnew)
        · exact (hcover k).mp hold
        · rw [← hnew]
          exact hkv_mem
      · intro hk
        exact Or.inl ((hcover k).mpr hk)
    · intro q hq
      rcases mem_updateA_strong _ _ _ _ hnodup hq with rfl | ⟨hqa, hqne⟩
      · dsimp only
        constructor
        · rw [merge_normD_enf, hEapp, hd1]
          constructor
          · rintro (he | he)
            · exact Or.inl he
            · exact Or.inr ⟨rfl, he⟩
          · rintro (he | ⟨_, he⟩)
            · exact Or.inl he
            · exact Or.inr he
        · rw [merge_normD_rep, hEapp, hRapp, hd1, hd2]
          constructor
          · rintro ⟨hne, hrr⟩
            constructor
            · rintro (hh | ⟨_, hh⟩)
              · exact hne (Or.inl hh)
              · exact hne (Or.inr hh)
            · rcases hrr with ⟨_, hr⟩ | hr
              · exact Or.inl hr
              · exact Or.inr ⟨rfl, hr⟩
          · rintro ⟨hne, hrr⟩
            constructor
            · rintro (hh | hh)
              · exact hne (Or.inl hh)
              · exact hne (Or.inr ⟨rfl, hh⟩)
            · rcases hrr with hr | ⟨_, hr⟩
              · exact Or.inl ⟨fun hh => hne (Or.inl hh), hr⟩
              · exact Or.inr hr
      · have hbad : ¬(violationKey v = q.1) := fun he => hqne he.symm
        obtain ⟨hq1, hq2⟩ := hdisp q hqa
        constructor
        · rw [hEapp, hq1]
          constructor
          · exact Or.inl
          · rintro (hh | ⟨he, _⟩)
            · exact hh
            · exact absurd he hbad
        · rw [hEapp, hRapp, hq2]
          constructor
          · rintro ⟨hne, hr⟩
            refine ⟨?_, Or.inl hr⟩
            rintro (hh | ⟨he, _⟩)
            · exact hne hh
            · exact hbad he
          · rintro ⟨hne, (hr | ⟨he, _⟩)⟩
            · exact ⟨fun hh => hne (Or.inl hh), hr⟩
            · exact absurd he hbad

theorem dedupFold_inv (events : List ViolationN) :
    ∀ (processed : List ViolationN) (acc : List (Str × ViolationN)),
      DedupInv processed acc →
      DedupInv (processed ++ events) (events.foldl dedupStep acc) := by
  induction events with
  | nil =>
    intro processed acc h
    simpa using h
  | cons v evs ih =>
    intro processed acc h
    have h' := dedupStep_inv processed acc v h
    have h2 := ih (processed ++ [v]) (dedupStep acc v) h'
    simpa [List.append_assoc] using h2

theorem checkUrlDedup_inv (events : List ViolationN) :
    DedupInv events (events.foldl dedupStep []) := by
  have h0 : DedupInv [] ([] : List (Str × ViolationN)) := by
    refine ⟨by simp, by simp [keysA], by simp [keysA], by simp⟩
  simpa using dedupFold_inv events [] [] h0

/-!  ## Lemmas: trimming and comment stripping in `parseURLList`  -/

theorem wsTrim_def (s : Str) :
    wsTrim s = wsTrimRight (s.dropWhile Char.isWhitespace) := rfl

theorem dropWhile_append_nonws (post : Str) (c : Char) (hc : c.isWhitespace = false) :
    List.dropWhile Char.isWhitespace (post.reverse ++ [c]) =
      List.dropWhile Char.isWhitespace post.reverse ++ [c] := by
  rw [List.dropWhile_append]
  split
  · next h =>
    rw [List.isEmpty_iff] at h
    rw [h]
    simp [List.dropWhile_cons, hc]
  · rfl

theorem wsTrimRight_append (l post : Str) (c : Char) (hc : c.isWhitespace = false) :
    wsTrimRight (l ++ c :: post) = l ++ c :: wsTrimRight post := by
  unfold wsTrimRight
  rw [List.reverse_append, List.reverse_cons, List.dropWhile_append,
    dropWhile_append_nonws post c hc]
  simp

theorem wsTrimRight_cons (rest : Str) (c : Char) (hc : c.isWhitespace = false) :
    wsTrimRight (c :: rest) = c :: wsTrimRight rest := by
  have := wsTrimRight_append [] rest c hc
  simpa using this

theorem mem_wsTrimRight (l : Str) (x : Char) (h : x ∈ wsTrimRight l) : x ∈ l := by
  unfold wsTrimRight at h
  rw [List.mem_reverse] at h
  exact List.mem_reverse.mp ((List.dropWhile_sublist _).mem h)

theorem lineURL_strips_comment (pre post : Str) (hpre : '#' ∉ pre) :
    lineURL (pre ++ '#' :: post) = lineURL pre := by
  have hhash_ws : ('#').isWhitespace = false := by decide
  cases htl : pre.dropWhile Char.isWhitespace with
  | nil =>
    have hA : wsTrim (pre ++ '#' :: post) = '#' :: wsTrimRight post := by
      rw [wsTrim_def, List.dropWhile_append, htl]
      simp only [List.isEmpty_nil, if_true, List.dropWhile_cons, hhash_ws]
      simp only [Bool.false_eq_true, if_false]
      exact wsTrimRight_cons post '#' hhash_ws
    have hB : wsTrim pre = [] := by
      rw [wsTrim_def, htl]
      rfl
    simp [lineURL, hA, hB, List.isPrefixOf]
  | cons c rest =>
    have hc_ws : Char.isWhitespace c = false := by
      by_contra hcw
      have hcw' : Char.isWhitespace c = true := by simpa using hcw
      have hid := List.dropWhile_idempotent Char.isWhitespace pre
      rw [htl, List.dropWhile_cons, if_pos hcw'] at hid
      have hle : (List.dropWhile Char.isWhitespace rest).length ≤ rest.length :=
        (List.dropWhile_sublist _).length_le
      rw [hid] at hle
      simp at hle
    have hall : ∀ x ∈ c :: rest, x ∈ pre := by
      intro x hx
      have hx' : x ∈ pre.dropWhile Char.isWhitespace := by
        rw [htl]
        exact hx
      exact (List.dropWhile_sublist _).mem hx'
    have hc_ne : c ≠ '#' := fun he => hpre (he ▸ hall c (List.mem_cons_self _ _))
    have hno_hash_tl : ∀ x ∈ c :: rest, x ≠ '#' := fun x hx he => hpre (he ▸ hall x hx)
    have hA : wsTrim (pre ++ '#' :: post) = c :: (rest ++ '#' :: wsTrimRight post) := by
      rw [wsTrim_def, List.dropWhile_append, htl]
      simp only [List.isEmpty_cons, Bool.false_eq_true, if_false]
      rw [wsTrimRight_append (c :: rest) post '#' hhash_ws]
      simp
    have hB : wsTrim pre = c :: wsTrimRight rest := by
      rw [wsTrim_def, htl, wsTrimRight_cons rest c hc_ws]
    have hTake : List.takeWhile (fun x => x != '#') (c :: (rest ++ '#' :: wsTrimRight post)) =
        c :: rest := by
      have hself : List.takeWhile (fun x : Char => x != '#') (c :: rest) = c :: rest :=
        List.takeWhile_eq_self_iff.mpr (fun x hx => by
          simp only [bne_iff_ne, ne_eq]
          exact hno_hash_tl x hx)
      have h1 : List.takeWhile (fun x : Char => x != '#')
          ((c :: rest) ++ '#' :: wsTrimRight post) = c :: rest := by
        rw [List.takeWhile_append, hself]
        simp
      simpa using h1
    have hTrimTl : wsTrim (c :: rest) = c :: wsTrimRight rest := by
      rw [wsTrim_def, List.dropWhile_cons]
      simp only [hc_ws, Bool.false_eq_true, if_false]
      exact wsTrimRight_cons rest c hc_ws
    have hcontains1 : (c :: (rest ++ '#' :: wsTrimRight post)).contains '#' = true := by
      show List.elem '#' (c :: (rest ++ '#' :: wsTrimRight post)) = true
      rw [List.elem_iff]
      simp
    have hcontains2 : (c :: wsTrimRight rest).contains '#' = false := by
      show List.elem '#' (c :: wsTrimRight rest) = false
      have hnm : '#' ∉ c :: wsTrimRight rest := by
        intro hmem
        rcases List.mem_cons.mp hmem with he | hmem
        · exact hc_ne he.symm
        · exact hpre (hall '#' (List.mem_cons_of_mem _ (mem_wsTrimRight rest '#' hmem)))
      exact Bool.eq_false_iff.mpr (fun h => hnm (List.elem_iff.mp h))
    have hbeq : ('#' == c) = false := by
      simp only [beq_eq_false_iff_ne, ne_eq]
      exact fun he => hc_ne he.symm
    have hpf1 : (("#").data).isPrefixOf (c :: (rest ++ '#' :: wsTrimRight post)) = false := by
      simp [List.isPrefixOf, hbeq]
    have hpf2 : (("#").data).isPrefixOf (c :: wsTrimRight rest) = false := by
      simp [List.isPrefixOf, hbeq]
    simp only [lineURL, hA, hB, hTake, hTrimTl, hcontains1, hcontains2, hpf1, hpf2]
    simp

/-!  ## Lemmas: disposition partition  -/

theorem filter_partition_length {α : Type} (p q : α → Bool) (l : List α)
    (h : ∀ x ∈ l, p x = !(q x)) :
    (l.filter p).length + (l.filter q).length = l.length := by
  induction l with
  | nil => simp
  | cons x t ih =>
    have hx := h x (List.mem_cons_self _ _)
    have ht := ih (fun y hy => h y (List.mem_cons_of_mem _ hy))
    cases hpx : p x
    · have hqx : q x = true := by
        rw [hpx] at hx
        simpa using hx.symm
      simp [List.filter_cons, hpx, hqx]
      omega
    · have hqx : q x = false := by
        rw [hpx] at hx
        simpa using hx.symm
      simp [List.filter_cons, hpx, hqx]
      omega

theorem isDisposition_partition (d : Str)
    (h : toLowerStr (wsTrim d) = [] ∨ toLowerStr (wsTrim d) = ("enforce").data ∨
      toLowerStr (wsTrim d) = ("report-only").data) :
    isDisposition d (("enforce").data) = !(isDisposition d (("report-only").data)) := by
  rcases h with h | h | h
  · simp only [isDisposition, h]
    decide
  · simp only [isDisposition, h]
    decide
  · simp only [isDisposition, h]
    decide

/-!  ## Lemmas: configuration repair  -/

theorem repairWaitUntil_eq (c : CSPConfig) :
    repairWaitUntil c =
      { c with waitUntil := if c.waitUntil = [] then ("domcontentloaded").data else c.waitUntil } := by
  unfold repairWaitUntil
  split_ifs <;> rfl

theorem repairNavTimeout_eq (c : CSPConfig) :
    repairNavTimeout c =
      { c with navTimeoutMs := if c.navTimeoutMs ≤ 0 then 30000 else c.navTimeoutMs } := by
  unfold repairNavTimeout
  split_ifs <;> rfl

theorem repairSettleWait_eq (c : CSPConfig) :
    repairSettleWait c =
      { c with settleWaitMs := if c.settleWaitMs < 0 then 0 else c.settleWaitMs } := by
  unfold repairSettleWait
  split_ifs <;> rfl

theorem repairConcurrency_eq (c : CSPConfig) :
    repairConcurrency c =
      { c with concurrency := if c.concurrency ≤ 0 then 1 else c.concurrency } := by
  unfold repairConcurrency
  split_ifs <;> rfl

theorem repairBetweenURL_eq (c : CSPConfig) :
    repairBetweenURL c =
      { c with betweenUrlMs := if c.betweenUrlMs < 0 then 0 else c.betweenUrlMs } := by
  unfold repairBetweenURL
  split_ifs <;> rfl

theorem repairUserAgent_eq (c : CSPConfig) :
    repairUserAgent c =
      { c with userAgent := if c.userAgent = [] then defaultConfig.userAgent else c.userAgent } := by
  unfold repairUserAgent
  split_ifs <;> rfl

theorem repairAcceptLanguage_eq (c : CSPConfig) :
    repairAcceptLanguage c =
      { c with acceptLanguage :=
          if c.acceptLanguage = [] then defaultConfig.acceptLanguage else c.acceptLanguage } := by
  unfold repairAcceptLanguage
  split_ifs <;> rfl

theorem repairBrowser_eq (c : CSPConfig) :
    repairBrowser c =
      { c with browser := if c.browser = [] then defaultConfig.browser else c.browser } := by
  unfold repairBrowser
  split_ifs <;> rfl

theorem parseConfig_eq (sc : StoredConfig) :
    parseConfig (some sc) =
      { waitUntil :=
          if sc.waitUntil.getD defaultConfig.waitUntil = [] then ("domcontentloaded").data
          else sc.waitUntil.getD defaultConfig.waitUntil
      , navTimeoutMs :=
          if sc.navTimeoutMs.getD defaultConfig.navTimeoutMs ≤ 0 then 30000
          else sc.navTimeoutMs.getD defaultConfig.navTimeoutMs
      , settleWaitMs :=
          if sc.settleWaitMs.getD defaultConfig.settleWaitMs < 0 then 0
          else sc.settleWaitMs.getD defaultConfig.settleWaitMs
      , concurrency :=
          if sc.concurrency.getD defaultConfig.concurrency ≤ 0 then 1
          else sc.concurrency.getD defaultConfig.concurrency
      , betweenUrlMs :=
          if sc.betweenUrlMs.getD defaultConfig.betweenUrlMs < 0 then 0
          else sc.betweenUrlMs.getD defaultConfig.betweenUrlMs
      , userAgent :=
          if sc.userAgent.getD defaultConfig.userAgent = [] then defaultConfig.userAgent
          else sc.userAgent.getD defaultConfig.userAgent
      , acceptLanguage :=
          if sc.acceptLanguage.getD defaultConfig.acceptLanguage = [] then
            defaultConfig.acceptLanguage
          else sc.acceptLanguage.getD defaultConfig.acceptLanguage
      , browser :=
          if sc.browser.getD defaultConfig.browser = [] then defaultConfig.browser
          else sc.browser.getD defaultConfig.browser } := by
  simp only [parseConfig, unmarshalConfig, repairWaitUntil_eq, repairNavTimeout_eq,
    repairSettleWait_eq, repairConcurrency_eq, repairBetweenURL_eq, repairUserAgent_eq,
    repairAcceptLanguage_eq, repairBrowser_eq]

/-!  ## Claims  -/

/-- C5: For every list of PageResults and every iteration order of the groups
map, the sequence returned by `groupViolations` is sorted by non-increasing
count: for all positions `i < j` in the output, the group at position `i` has
a count greater than or equal to the group at position `j`. -/
theorem groupViolations_sorted_desc (results : List ReportPageResult) (order : List Str) :
    (groupViolations results order).Pairwise (fun a b => b.count ≤ a.count) := by
  have h := selSort_sorted okCount okCount_total okCount_trans
    (order.filterMap (fun k => lookupA k (buildGroups results)))
  exact h.imp (fun hab => by simpa [okCount] using hab)

/-- C6: Every `GroupedViolation` returned by `groupViolations` has a count
equal to the sum of the violation-list lengths across its pages mapping. -/
theorem groupViolations_count_eq_pagesLen (results : List ReportPageResult)
    (order : List Str) (g : GroupedViolation) (hg : g ∈ groupViolations results order) :
    g.count = pagesLen g.pages := by
  have hperm := selSort_perm okCount (order.filterMap (fun k => lookupA k (buildGroups results)))
  have hg' : g ∈ order.filterMap (fun k => lookupA k (buildGroups results)) :=
    hperm.mem_iff.mp hg
  rw [List.mem_filterMap] at hg'
  obtain ⟨k, _, hk⟩ := hg'
  exact buildGroups_count results (k, g) (lookupA_mem _ _ _ hk)

/-- C6 witness: the spec's Scenario D — one key on two pages with three and
two violations yields a single group with count 5 and two page entries, and
the count invariant holds there. -/
theorem groupViolations_count_eq_pagesLen_witness :
    scenarioDGroup ∈ groupViolations scenarioD [kImg] ∧
      scenarioDGroup.count = pagesLen scenarioDGroup.pages :=
  ⟨by decide, groupViolations_count_eq_pagesLen scenarioD [kImg] scenarioDGroup (by decide)⟩

/-- C1: exhibit of the order dependence of `groupViolations`.  On a page with
two violations in different groups of equal count, two iteration orders of
the Go `groups` map — both legitimate enumerations of the same key set, and
Go randomizes which one a given invocation sees — produce different output
sequences, so two invocations on the same input need not return identical
ordered sequences. -/
theorem groupViolations_order_dependent :
    ([kImg, kScript]).Perm (keysA (buildGroups [tiePage])) ∧
      ([kScript, kImg]).Perm (keysA (buildGroups [tiePage])) ∧
      groupViolations [tiePage] [kImg, kScript] ≠ groupViolations [tiePage] [kScript, kImg] :=
  ⟨by decide, by decide, by decide⟩

/-- C2 counterexample: an engine that starts and exits zero but leaves no
readable output file makes `runCSPCheck` return an error, although the claim's
stated error condition (start failure, or non-zero exit with no output file)
does not hold for any engine. -/
theorem runCSPCheck_error_without_claimed_cause :
    (runCSPCheck [engineNoFile]).isOk = false ∧
      ¬ ∃ o ∈ [engineNoFile], (o.startOk = false ∨ (o.exitCode ≠ 0 ∧ o.fileOk = false)) :=
  ⟨rfl, by decide⟩

/-- C2 (amended): `runCSPCheck` succeeds iff every engine starts, leaves a
readable output file, and that file parses (regardless of exit code); on
success the returned exit code is the maximum of the per-engine exit codes,
and it is zero iff every engine exited zero. -/
theorem runCSPCheck_amended (outs : List EngineOutcome) :
    ((runCSPCheck outs).isOk = true ↔
      ∀ o ∈ outs, o.startOk = true ∧ o.fileOk = true ∧ o.parseOk = true) ∧
    ∀ c, runCSPCheck outs = Except.ok c →
      c = maxExitOf outs ∧ (c = 0 ↔ ∀ o ∈ outs, o.exitCode = 0) := by
  constructor
  · exact runCSPCheckLoop_ok_iff outs 0
  · intro c hc
    have hval := runCSPCheckLoop_ok_val outs 0 c hc
    refine ⟨hval, ?_⟩
    rw [hval]
    have h0 := foldl_max_eq_zero outs 0
    simpa [maxExitOf] using h0

/-- C2 witness: with one engine exiting 1 (file present) and one clean
engine, `runCSPCheck` succeeds and returns the maximum exit code 1. -/
theorem runCSPCheck_amended_witness :
    (runCSPCheck demoEngines).isOk = true ∧ 1 = maxExitOf demoEngines :=
  ⟨(runCSPCheck_amended demoEngines).1.mpr (by decide),
   ((runCSPCheck_amended demoEngines).2 1 (by rfl)).1⟩

/-- C3: the dedup step of `checkUrl` yields a list in which no two entries
share the dedup tuple `(effectiveDirective, blockedURI, sourceFile,
lineNumber, columnNumber)`; for each retained entry, if any raw event with
its key normalizes to `enforce` the entry's disposition normalizes to
`enforce`, and otherwise if any normalizes to `report-only` the entry's
disposition normalizes to `report-only`. -/
theorem checkUrlDedup_spec (events : List ViolationN) :
    (checkUrlDedup events).Pairwise (fun a b => keyTuple a ≠ keyTuple b) ∧
    ∀ e ∈ checkUrlDedup events,
      ((∃ v ∈ events, violationKey v = violationKey e ∧
          normalizeDisposition v.disposition = ("enforce").data) →
        normalizeDisposition e.disposition = ("enforce").data) ∧
      ((∀ v ∈ events, violationKey v = violationKey e →
          normalizeDisposition v.disposition ≠ ("enforce").data) →
        (∃ v ∈ events, violationKey v = violationKey e ∧
          normalizeDisposition v.disposition = ("report-only").data) →
        normalizeDisposition e.disposition = ("report-only").data) := by
  obtain ⟨hkey, hnodup, hcover, hdisp⟩ := checkUrlDedup_inv events
  constructor
  · unfold checkUrlDedup
    rw [List.pairwise_map]
    have hpw : (events.foldl dedupStep []).Pairwise (fun q q' => q.1 ≠ q'.1) :=
      List.pairwise_map.mp hnodup
    refine hpw.imp_of_mem ?_
    intro q q' hq hq' hne htup
    apply hne
    rw [← hkey q hq, ← hkey q' hq']
    exact violationKey_of_tuple _ _ htup
  · intro e he
    unfold checkUrlDedup at he
    rw [List.mem_map] at he
    obtain ⟨q, hq, rfl⟩ := he
    constructor
    · rintro ⟨v, hv, hkv, hdv⟩
      have hE : hasEnf events q.1 := ⟨v, hv, hkv.trans (hkey q hq), hdv⟩
      exact ((hdisp q hq).1).mpr hE
    · rintro hnone ⟨v, hv, hkv, hdv⟩
      have hR : hasRep events q.1 := ⟨v, hv, hkv.trans (hkey q hq), hdv⟩
      have hE : ¬ hasEnf events q.1 := by
        rintro ⟨w, hw, hwk, hwd⟩
        exact hnone w hw (hwk.trans (hkey q hq).symm) hwd
      exact ((hdisp q hq).2).mpr ⟨hE, hR⟩

/-- C3 witness: an unknown-disposition event merged with an `enforce` event
for the same tuple collapses to one entry whose disposition normalizes to
`enforce`. -/
theorem checkUrlDedup_spec_witness :
    evEnforce ∈ checkUrlDedup [evUnknown, evEnforce] ∧
      normalizeDisposition evEnforce.disposition = ("enforce").data :=
  ⟨by decide,
   ((checkUrlDedup_spec [evUnknown, evEnforce]).2 evEnforce (by decide)).1 (by decide)⟩

/-- C4: for violations whose disposition, after trimming and lowercasing, is
empty, exactly `enforce`, or `report-only`, each violation satisfies exactly
one of `isDisposition d "enforce"` and `isDisposition d "report-only"`, and
so the two filters of `groupViolationsByDisposition` partition the list:
the filtered lengths sum to the original length. -/
theorem disposition_partition (l : List Violation)
    (h : ∀ v ∈ l, toLowerStr (wsTrim v.disposition) = [] ∨
      toLowerStr (wsTrim v.disposition) = ("enforce").data ∨
      toLowerStr (wsTrim v.disposition) = ("report-only").data) :
    (∀ v ∈ l, isDisposition v.disposition (("enforce").data) =
      !(isDisposition v.disposition (("report-only").data))) ∧
    (l.filter (fun v => isDisposition v.disposition (("enforce").data))).length +
      (l.filter (fun v => isDisposition v.disposition (("report-only").data))).length =
      l.length := by
  have hpt : ∀ v ∈ l, isDisposition v.disposition (("enforce").data) =
      !(isDisposition v.disposition (("report-only").data)) :=
    fun v hv => isDisposition_partition v.disposition (h v hv)
  exact ⟨hpt, filter_partition_length _ _ l hpt⟩

/-- C4 witness: the three recognized disposition spellings partition. -/
theorem disposition_partition_witness :
    (dispDemo.filter (fun v => isDisposition v.disposition (("enforce").data))).length +
      (dispDemo.filter (fun v => isDisposition v.disposition (("report-only").data))).length =
      dispDemo.length :=
  (disposition_partition dispDemo (by decide)).2

/-- C7: every `MergedGroup` returned by `groupViolationsMulti` or
`groupViolationsMultiByDisposition` has a browsers list that is strictly
ascending in lexicographic order (hence duplicate-free), for any iteration
orders of the group map and of the per-key engine-name sets. -/
theorem mergedGroup_browsers_strict_sorted (brs : List BrowserReport) (disposition : Str)
    (keyOrder keyOrder2 : List Str) (nameOrders nameOrders2 : Str → List Str)
    (h1 : ∀ k, (nameOrders k).Perm ((lookupA k (groupBrowsersOf (multiPairs brs))).getD []))
    (h2 : ∀ k, (nameOrders2 k).Perm
      ((lookupA k (groupBrowsersOf (multiPairsByDisposition brs disposition))).getD [])) :
    (∀ mg ∈ groupViolationsMulti brs keyOrder nameOrders,
      mg.browsers.Pairwise (fun a b => lexLt a b = true)) ∧
    (∀ mg ∈ groupViolationsMultiByDisposition brs disposition keyOrder2 nameOrders2,
      mg.browsers.Pairwise (fun a b => lexLt a b = true)) := by
  have key : ∀ names : List Str, names.Nodup →
      (selSort okName names).Pairwise (fun a b => lexLt a b = true) := by
    intro names hnd
    have hsort := selSort_sorted okName okName_total okName_trans names
    have hnd' : (selSort okName names).Nodup := (selSort_perm okName names).symm.nodup hnd
    exact (hsort.and hnd').imp (fun hab => okName_of_ne _ _ hab.1 hab.2)
  have hv : ∀ (pairs : List (Str × Str)) (no : Str → List Str),
      (∀ k, (no k).Perm ((lookupA k (groupBrowsersOf pairs)).getD [])) →
      ∀ k, (no k).Nodup := by
    intro pairs no hno k
    have hperm := hno k
    cases hlk : lookupA k (groupBrowsersOf pairs) with
    | none =>
      rw [hlk] at hperm
      simp only [Option.getD_none] at hperm
      rw [hperm.eq_nil]
      exact List.nodup_nil
    | some ns =>
      rw [hlk] at hperm
      simp only [Option.getD_some] at hperm
      have hns : ns.Nodup := groupBrowsersOf_nodup pairs (k, ns) (lookupA_mem _ _ _ hlk)
      exact hperm.symm.nodup hns
  constructor
  · intro mg hmg
    unfold groupViolationsMulti at hmg
    rw [List.mem_map] at hmg
    obtain ⟨g, _, rfl⟩ := hmg
    exact key _ (hv (multiPairs brs) nameOrders h1 g.key)
  · intro mg hmg
    unfold groupViolationsMultiByDisposition at hmg
    rw [List.mem_map] at hmg
    obtain ⟨g, _, rfl⟩ := hmg
    exact key _ (hv (multiPairsByDisposition brs disposition) nameOrders2 h2 g.key)

/-- C7 witness: with two engines exhibiting the same group, the merged
group's browsers list `["chromium", "firefox"]` is strictly ascending. -/
theorem mergedGroup_browsers_strict_sorted_witness :
    demoMerged ∈ groupViolationsMulti demoBrowserReports [kImg] demoNameOrders ∧
      demoMerged.browsers.Pairwise (fun a b => lexLt a b = true) :=
  ⟨by decide,
   (mergedGroup_browsers_strict_sorted demoBrowserReports (("enforce").data) [kImg] [kImg]
      demoNameOrders demoNameOrdersEnforce (fun _ => List.Perm.refl _)
      (fun _ => List.Perm.refl _)).1 demoMerged (by decide)⟩

/-- C8: `parseConfig` repairs invalid stored values instead of carrying them
through — non-positive `navTimeoutMs` becomes the fixed positive default
30000, non-positive `concurrency` becomes 1, negative `settleWaitMs` and
`betweenUrlMs` become 0, empty `waitUntil`/`userAgent`/`acceptLanguage` fall
back to defaults — and the resulting numeric fields are always valid. -/
theorem parseConfig_repairs (sc : StoredConfig) :
    (∀ n : Int, sc.navTimeoutMs = some n → n ≤ 0 →
      (parseConfig (some sc)).navTimeoutMs = 30000) ∧
    (∀ n : Int, sc.concurrency = some n → n ≤ 0 → (parseConfig (some sc)).concurrency = 1) ∧
    (∀ n : Int, sc.settleWaitMs = some n → n < 0 → (parseConfig (some sc)).settleWaitMs = 0) ∧
    (∀ n : Int, sc.betweenUrlMs = some n → n < 0 → (parseConfig (some sc)).betweenUrlMs = 0) ∧
    (sc.waitUntil = some [] → (parseConfig (some sc)).waitUntil = ("domcontentloaded").data) ∧
    (sc.userAgent = some [] → (parseConfig (some sc)).userAgent = defaultConfig.userAgent) ∧
    (sc.acceptLanguage = some [] →
      (parseConfig (some sc)).acceptLanguage = defaultConfig.acceptLanguage) ∧
    (0 < (parseConfig (some sc)).navTimeoutMs ∧ 0 ≤ (parseConfig (some sc)).settleWaitMs ∧
      0 < (parseConfig (some sc)).concurrency ∧ 0 ≤ (parseConfig (some sc)).betweenUrlMs) := by
  rw [parseConfig_eq]
  refine ⟨?_, ?_, ?_, ?_, ?_, ?_, ?_, ?_, ?_, ?_, ?_⟩
  · intro n hn hle
    simp [hn, hle]
  · intro n hn hle
    simp [hn, hle]
  · intro n hn hle
    simp [hn, hle]
  · intro n hn hle
    simp [hn, hle]
  · intro hn
    simp [hn]
  · intro hn
    simp [hn]
  · intro hn
    simp [hn]
  · dsimp only
    split <;> omega
  · dsimp only
    split <;> omega
  · dsimp only
    split <;> omega
  · dsimp only
    split <;> omega

/-- C8 witness: the spec's Scenario A profile (`navTimeoutMs: -5`, plus the
other invalid fields) is repaired to the fixed defaults. -/
theorem parseConfig_repairs_witness :
    (parseConfig (some demoStored)).navTimeoutMs = 30000 ∧
      (parseConfig (some demoStored)).concurrency = 1 ∧
      (parseConfig (some demoStored)).settleWaitMs = 0 ∧
      (parseConfig (some demoStored)).betweenUrlMs = 0 ∧
      (parseConfig (some demoStored)).waitUntil = ("domcontentloaded").data :=
  ⟨(parseConfig_repairs demoStored).1 (-5) rfl (by decide),
   (parseConfig_repairs demoStored).2.1 0 rfl (by decide),
   (parseConfig_repairs demoStored).2.2.1 (-1) rfl (by decide),
   (parseConfig_repairs demoStored).2.2.2.1 (-3) rfl (by decide),
   (parseConfig_repairs demoStored).2.2.2.2.1 rfl⟩

/-- C9: the spec's Scenario B — of the five lines `"# comment"`,
`"https://example.org"`, `"ftp://example.org"`, `""` and `"not-a-url"`,
`parseURLList` accepts exactly one URL, normalized with a trailing `/`. -/
theorem parseURLList_scenarioB :
    parseURLList (("# comment\nhttps://example.org\nftp://example.org\n\nnot-a-url").data) =
      [("https://example.org/").data] := by
  decide

/-- C10: `parseURLList` treats the first `#` anywhere in a line as the start
of a comment — for every line split as `pre ++ "#" ++ post` with no `#` in
`pre`, the line is processed exactly as `pre` alone — so a URL with a
fragment is accepted with the fragment silently stripped. -/
theorem parseURLList_strips_fragment :
    (∀ pre post : Str, '#' ∉ pre → lineURL (pre ++ '#' :: post) = lineURL pre) ∧
    parseURLList (("https://example.org/page#section").data) =
      [("https://example.org/page").data] :=
  ⟨lineURL_strips_comment, by decide⟩

/-- C10 witness: the general comment-stripping law applied to the fragment
URL of the claim. -/
theorem parseURLList_strips_fragment_witness :
    lineURL ((("https://example.org/page").data) ++ '#' :: (("section").data)) =
      lineURL (("https://example.org/page").data) :=
  (parseURLList_strips_fragment).1 (("https://example.org/page").data) (("section").data)
    (by decide)
